import Mathlib

/-!
Verification development for the wasm-log-explorer backend: a shallow embedding
of the chunked line-indexing and substring-search engine
(src/backend/src/indexer/scanner.rs, src/backend/src/core/engine.rs,
src/backend/src/search/matcher.rs, src/backend/src/lib.rs) together with
theorems settling the specification claims.

Bytes are modelled as `Nat` (the Rust code reads `u8` values, all < 256, and
u64 file offsets; no arithmetic in the embedded code can overflow at these
sizes, so `Nat` is a faithful carrier). Fallible Rust code is modelled with
`Option`: for slice indexing `none` stands for a panic; for the capacity
`assert!` of `append_chunk`, whose outcome depends on the actual `Vec`
capacity (of which the model only tracks the guaranteed lower bound), `none`
marks the commits whose success the reserve contract does not guarantee.
-/

/-! ### Slice indexing

Rust `&l[s..t]` panics when `s > t` or `t > l.len()`; `&l[s..]` panics when
`s > l.len()`. Both are modelled with `Option`. -/

/-- Model of the Rust slice expression `&l[s..t]` (`none` = index panic). -/
def slice_get (l : List Nat) (s t : Nat) : Option (List Nat) :=
  if s ≤ t ∧ t ≤ l.length then some ((l.take t).drop s) else none

/-- Model of the Rust slice expression `&l[s..]` (`none` = index panic). -/
def tail_get (l : List Nat) (s : Nat) : Option (List Nat) :=
  if s ≤ l.length then some (l.drop s) else none

/-! ### Newline scanner (src/backend/src/indexer/scanner.rs) -/

/-- Positions of the byte `10` (`\n`) in `chunk`, in increasing order.
Models the `memchr_iter(b'\n', chunk)` iteration of `scan_chunk`. -/
def newline_positions (chunk : List Nat) : List Nat :=
  (List.range chunk.length).filter (fun i => chunk.getD i 0 == 10)

/-- Embedding of `scan_chunk` (scanner.rs lines 21-45): returns the pushed
line-start offsets together with the returned boolean. An empty chunk yields
`([], true)`; otherwise `base_offset` is pushed first when
`chunk_starts_new_line` holds, then `base_offset + pos + 1` for every `\n`
position, and the flag reports whether the last byte is `\n`. -/
def scan_chunk (chunk : List Nat) (base_offset : Nat) (chunk_starts_new_line : Bool) :
    List Nat × Bool :=
  if chunk.isEmpty then ([], true)
  else
    ((if chunk_starts_new_line then [base_offset] else []) ++
        (newline_positions chunk).map (fun pos => base_offset + pos + 1),
      chunk.getLast? == some 10)

/-- Reference form of the scanner written from the specification text of
claim C2: empty chunk gives `([], true)`; otherwise the output is
`base_offset` (iff the flag is set) followed by `p + 1` for each absolute
`\n` position `p` in increasing order, and the terminator flag is true iff
the last byte is `\n`. -/
def scan_chunk_spec (chunk : List Nat) (base_offset : Nat) (chunk_starts_new_line : Bool) :
    List Nat × Bool :=
  if chunk.isEmpty then ([], true)
  else
    ((if chunk_starts_new_line then [base_offset] else []) ++
        (List.range chunk.length).filterMap
          (fun p => if chunk.getD p 0 == 10 then some (base_offset + p + 1) else none),
      chunk.getLast? == some 10)

/-- Reference definition from claim C1: the line starts of a byte string `S`
are byte position 0 together with every position immediately after a `\n`. -/
def line_starts_of (s : List Nat) : List Nat :=
  if s.isEmpty then []
  else 0 :: (List.range s.length).filterMap
    (fun p => if s.getD p 0 == 10 then some (p + 1) else none)

/-! ### Engine state (src/backend/src/core/engine.rs)

The working buffer is a `List Nat` plus an explicit capacity (`Vec::reserve`
guarantees capacity of at least `len + size`; the model tracks that
guaranteed minimum). -/

/-- Embedding of `struct LogEngine` (engine.rs lines 7-18). -/
structure LogEngine where
  buffer : List Nat
  buffer_cap : Nat
  offsets : List Nat
  total_bytes_indexed : Nat
  last_chunk_ended_with_newline : Bool
deriving DecidableEq

/-- Embedding of `LogEngine::new` (engine.rs lines 21-28). -/
def LogEngine.new : LogEngine :=
  { buffer := [], buffer_cap := 0, offsets := [], total_bytes_indexed := 0,
    last_chunk_ended_with_newline := true }

/-- Embedding of `get_buffer_pointer` (engine.rs lines 35-38): reserves
capacity for `size` more bytes. The returned raw pointer is not modelled;
only the capacity effect of `Vec::reserve` is. -/
def get_buffer_pointer (e : LogEngine) (size : Nat) : LogEngine :=
  { e with buffer_cap := max e.buffer_cap (e.buffer.length + size) }

/-- Embedding of `append_chunk` (engine.rs lines 43-52). The bytes written by
the caller into the reserved region are passed as `data`. The `assert!`
checks `new_len <= capacity` against the actual `Vec` capacity, of which
`buffer_cap` tracks only the `Vec::reserve`-guaranteed lower bound (the real
allocation may be larger: minimum allocation size, amortized growth), so the
`some` branch is faithful — whenever the guaranteed bound suffices the real
assert passes — while `none` marks a commit the reserve contract does not
cover, on which the real program may abort with the assert (a panic, never a
recoverable error). On success it returns the engine with the extended
buffer together with the view of the newly committed bytes. -/
def append_chunk (e : LogEngine) (data : List Nat) : Option (LogEngine × List Nat) :=
  if e.buffer.length + data.length ≤ e.buffer_cap then
    some ({ e with buffer := e.buffer ++ data }, data)
  else none

/-- Embedding of `append_offsets` (engine.rs lines 56-58). -/
def append_offsets (e : LogEngine) (new_offsets : List Nat) : LogEngine :=
  { e with offsets := e.offsets ++ new_offsets }

/-- Embedding of `advance_after_chunk` (engine.rs lines 63-66). -/
def advance_after_chunk (e : LogEngine) (chunk_len : Nat) (ended_with_newline : Bool) :
    LogEngine :=
  { e with
    total_bytes_indexed := e.total_bytes_indexed + chunk_len,
    last_chunk_ended_with_newline := ended_with_newline }

/-- Embedding of `discard_buffer_after_indexing` (engine.rs lines 72-75):
`clear` plus `shrink_to_fit` empties the buffer and drops its capacity. -/
def discard_buffer_after_indexing (e : LogEngine) : LogEngine :=
  { e with buffer := [], buffer_cap := 0 }

/-- Embedding of `line_count` (engine.rs lines 89-91). -/
def LogEngine.line_count (e : LogEngine) : Nat := e.offsets.length

/-- Embedding of `get_line_ranges` (engine.rs lines 101-115): clamp `stop` to
the offset count, clamp `start` to `stop`, and emit
`(offsets[i], offsets.get(i+1).unwrap_or(total_bytes_indexed))` for each `i`
in the clamped range. `getD` with an arbitrary default stands for the always
in-bounds `offsets[i]`. -/
def get_line_ranges (e : LogEngine) (start stop : Nat) : List (Nat × Nat) :=
  let stop2 := min stop e.offsets.length
  let start2 := min start stop2
  (List.range' start2 (stop2 - start2)).map
    (fun i => (e.offsets.getD i 0, e.offsets.getD (i + 1) e.total_bytes_indexed))

/-- Reference form of `get_line_ranges` written from the wording of claim C5:
clamp both indices into `[0, line_count]`, return the empty list when
`start ≥ stop` after clamping, and otherwise the ranges
`(offsets[i], offsets[i+1])` with the end of the last indexed line being
`total_bytes_indexed`. -/
def get_line_ranges_spec (offsets : List Nat) (total start stop : Nat) : List (Nat × Nat) :=
  let s := min start offsets.length
  let t := min stop offsets.length
  if t ≤ s then []
  else (List.range' s (t - s)).map
    (fun i => (offsets.getD i 0,
      if i + 1 < offsets.length then offsets.getD (i + 1) 0 else total))

/-- Embedding of `clear` (engine.rs lines 119-124). `Vec::clear` keeps the
allocation, so the buffer capacity is unchanged. -/
def LogEngine.clear (e : LogEngine) : LogEngine :=
  { e with
    buffer := [], offsets := [], total_bytes_indexed := 0,
    last_chunk_ended_with_newline := true }

/-- Embedding of `buffer_slice` (engine.rs lines 129-137). -/
def buffer_slice (e : LogEngine) (start stop : Nat) : Option (List Nat) :=
  if stop ≤ e.buffer.length then slice_get e.buffer start stop else some []

/-! ### FFI layer operations (src/backend/src/lib.rs) -/

/-- Embedding of `index_chunk` (lib.rs lines 37-50): commit the written bytes,
scan them with the carried base offset and boundary flag, append the
resulting offsets, advance the cumulative state, and discard the buffer.
`none` propagates the `append_chunk` capacity abort. -/
def index_chunk (e : LogEngine) (data : List Nat) : Option LogEngine :=
  match append_chunk e data with
  | none => none
  | some (e1, chunk) =>
    let scanned := scan_chunk chunk e.total_bytes_indexed e.last_chunk_ended_with_newline
    some (discard_buffer_after_indexing
      (advance_after_chunk (append_offsets e1 scanned.1) chunk.length scanned.2))

/-- The caller protocol for submitting one chunk: `get_buffer_pointer` with
the chunk size (the JS side writes the bytes), then `index_chunk`. -/
def ingest_chunk (e : LogEngine) (data : List Nat) : Option LogEngine :=
  index_chunk (get_buffer_pointer e data.length) data

/-! ### Substring matcher (src/backend/src/search/matcher.rs) -/

/-- Embedding of `contains_subslice` (matcher.rs lines 40-59): the memchr loop
tries every occurrence of the first needle byte as a candidate start, checks
bounds, and compares the slice; it succeeds iff the needle occurs as a
contiguous subslice. -/
def contains_subslice (haystack needle : List Nat) : Bool :=
  if needle.length > haystack.length then false
  else if needle.length = 0 then true
  else (List.range haystack.length).any (fun s =>
    haystack.getD s 0 == needle.headD 0 &&
      (decide (s + needle.length ≤ haystack.length) &&
        ((haystack.drop s).take needle.length == needle)))

/-- Embedding of the `offsets.windows(2)` loop of `match_lines` (matcher.rs
lines 20-26). `a` is the current window start `offsets[idx]` and `l` the
remaining offsets; each window `(a, b)` with `b ≤ buffer.len` takes the slice
`&buffer[a..b]` (whose index panic is propagated as `none`) and records `idx`
when the needle occurs in it. -/
def window_scan (buffer needle : List Nat) : Nat → Nat → List Nat → Option (List Nat)
  | _, _, [] => some []
  | idx, a, b :: l =>
    if b ≤ buffer.length then
      match slice_get buffer a b with
      | none => none
      | some s =>
        match window_scan buffer needle (idx + 1) b l with
        | none => none
        | some out => some (if contains_subslice s needle then idx :: out else out)
    else window_scan buffer needle (idx + 1) b l

/-- Embedding of `match_lines` (matcher.rs lines 10-36): empty needle matches
every indexed line; otherwise scan the windows, then handle the last line
(`offsets.len() >= 2` tail slice, or the single-offset whole-buffer case). -/
def match_lines (buffer offsets needle : List Nat) : Option (List Nat) :=
  if needle.isEmpty then some (List.range offsets.length)
  else
    let scanned := match offsets with
      | [] => some ([] : List Nat)
      | a :: tl => window_scan buffer needle 0 a tl
    match scanned with
    | none => none
    | some out =>
      if 2 ≤ offsets.length then
        if offsets.getLast?.getD 0 < buffer.length ∧
            contains_subslice (buffer.drop (offsets.getLast?.getD 0)) needle
        then some (out ++ [offsets.length - 1])
        else some out
      else if offsets.length = 1 then
        if 0 < buffer.length ∧ contains_subslice buffer needle
        then some (out ++ [0])
        else some out
      else some out

/-- Total (panic-free) form of the window loop: the per-line hits the code
produces when the offsets are monotone. -/
def window_hits (buffer needle : List Nat) : Nat → Nat → List Nat → List Nat
  | _, _, [] => []
  | idx, a, b :: l =>
    if b ≤ buffer.length then
      (if contains_subslice ((buffer.take b).drop a) needle then [idx] else []) ++
        window_hits buffer needle (idx + 1) b l
    else window_hits buffer needle (idx + 1) b l

/-- Total form of `match_lines` for monotone offsets and a non-empty needle:
per-line hits of the windows plus the last-line handling. -/
def match_hits (buffer offsets needle : List Nat) : List Nat :=
  let out := match offsets with
    | [] => ([] : List Nat)
    | a :: tl => window_hits buffer needle 0 a tl
  if 2 ≤ offsets.length then
    if offsets.getLast?.getD 0 < buffer.length ∧
        contains_subslice (buffer.drop (offsets.getLast?.getD 0)) needle
    then out ++ [offsets.length - 1]
    else out
  else if offsets.length = 1 then
    if 0 < buffer.length ∧ contains_subslice buffer needle then out ++ [0] else out
  else out

/-- The greatest line index `i` with `offsets[i] ≤ p`, for strictly
increasing offsets; written from the wording of claim C4. -/
def claim_line_of (offsets : List Nat) (p : Nat) : Nat :=
  (offsets.filter (fun o => decide (o ≤ p))).length - 1

/-- Matcher behaviour as worded by claim C4 (and spec section 4.3): find every
occurrence of the needle anywhere in the buffer, map each match start to a
line index via the greatest `i` with `offsets[i] ≤ p`, and deduplicate. -/
def match_lines_claim (buffer offsets needle : List Nat) : List Nat :=
  if needle.isEmpty then List.range offsets.length
  else
    (((List.range buffer.length).filter (fun p =>
        decide (p + needle.length ≤ buffer.length) &&
          ((buffer.drop p).take needle.length == needle))).map
      (claim_line_of offsets)).dedup

/-- Embedding of `search` (lib.rs lines 117-128): match over the currently
retained buffer bytes and the accumulated offsets. -/
def search (e : LogEngine) (needle : List Nat) : Option (List Nat) :=
  match buffer_slice e 0 e.buffer.length with
  | none => none
  | some buf => match_lines buf e.offsets needle

/-! ### UTF-8 validation and lossy decoding (models of the Rust standard
library functions used by lib.rs) -/

/-- Whether a byte is a UTF-8 continuation byte (`0x80..=0xBF`). -/
def is_cont (b : Nat) : Bool := decide (0x80 ≤ b ∧ b ≤ 0xBF)

/-- Admissible second byte for a multi-byte sequence with lead byte `b`,
per the UTF-8 table used by `core::str` (no overlongs, no surrogates,
max U+10FFFF). -/
def byte2_ok (b c1 : Nat) : Bool :=
  if b == 0xE0 then decide (0xA0 ≤ c1 ∧ c1 ≤ 0xBF)
  else if b == 0xED then decide (0x80 ≤ c1 ∧ c1 ≤ 0x9F)
  else if b == 0xF0 then decide (0x90 ≤ c1 ∧ c1 ≤ 0xBF)
  else if b == 0xF4 then decide (0x80 ≤ c1 ∧ c1 ≤ 0x8F)
  else is_cont c1

/-- Model of `Utf8Error::valid_up_to` from `std::str::from_utf8`: the length
of the longest prefix of complete, valid UTF-8 sequences before the first
invalid or incomplete sequence. On fully valid input it equals the length. -/
def utf8_valid_up_to : List Nat → Nat
  | [] => 0
  | b :: rest =>
    if b < 0x80 then utf8_valid_up_to rest + 1
    else if b < 0xC2 then 0
    else if b ≤ 0xDF then
      match rest with
      | [] => 0
      | c1 :: rest2 => if is_cont c1 then utf8_valid_up_to rest2 + 2 else 0
    else if b ≤ 0xEF then
      match rest with
      | [] => 0
      | c1 :: rest2 =>
        if byte2_ok b c1 then
          match rest2 with
          | [] => 0
          | c2 :: rest3 => if is_cont c2 then utf8_valid_up_to rest3 + 3 else 0
        else 0
    else if b ≤ 0xF4 then
      match rest with
      | [] => 0
      | c1 :: rest2 =>
        if byte2_ok b c1 then
          match rest2 with
          | [] => 0
          | c2 :: rest3 =>
            if is_cont c2 then
              match rest3 with
              | [] => 0
              | c3 :: rest4 => if is_cont c3 then utf8_valid_up_to rest4 + 4 else 0
            else 0
        else 0
    else 0

/-- The UTF-8 encoding of U+FFFD, the replacement character. -/
def rep3 : List Nat := [0xEF, 0xBF, 0xBD]

/-- Continuation-byte ranges still expected after reading lead byte `b`
(`none` when `b` cannot start a sequence). -/
def lead_ranges (b : Nat) : Option (List (Nat × Nat)) :=
  if b < 0xC2 then none
  else if b ≤ 0xDF then some [(0x80, 0xBF)]
  else if b = 0xE0 then some [(0xA0, 0xBF), (0x80, 0xBF)]
  else if b = 0xED then some [(0x80, 0x9F), (0x80, 0xBF)]
  else if b ≤ 0xEF then some [(0x80, 0xBF), (0x80, 0xBF)]
  else if b = 0xF0 then some [(0x90, 0xBF), (0x80, 0xBF), (0x80, 0xBF)]
  else if b = 0xF4 then some [(0x80, 0x8F), (0x80, 0xBF), (0x80, 0xBF)]
  else if b ≤ 0xF3 then some [(0x80, 0xBF), (0x80, 0xBF), (0x80, 0xBF)]
  else none

/-- Byte-at-a-time model of `String::from_utf8_lossy`: `pending` holds the
bytes of the current partial sequence and `expected` the ranges its remaining
continuation bytes must satisfy. Each maximal invalid subpart becomes one
replacement character, exactly as in the Rust implementation. -/
def lossy_run : List Nat → List Nat → List (Nat × Nat) → List Nat
  | [], pending, _ => if pending.isEmpty then [] else rep3
  | b :: rest, pending, expected =>
    match expected with
    | [] =>
      if b < 0x80 then b :: lossy_run rest [] []
      else
        match lead_ranges b with
        | some rs => lossy_run rest [b] rs
        | none => rep3 ++ lossy_run rest [] []
    | (lo, hi) :: more =>
      if lo ≤ b ∧ b ≤ hi then
        match more with
        | [] => (pending ++ [b]) ++ lossy_run rest [] []
        | _ :: _ => lossy_run rest (pending ++ [b]) more
      else
        rep3 ++
          (if b < 0x80 then b :: lossy_run rest [] []
           else
             match lead_ranges b with
             | some rs => lossy_run rest [b] rs
             | none => rep3 ++ lossy_run rest [] [])

/-- Model of `String::from_utf8_lossy`, as the byte sequence of the produced
string. -/
def from_utf8_lossy (l : List Nat) : List Nat := lossy_run l [] []

/-- Embedding of `decode_utf8_line_slice` (lib.rs lines 99-105): compute the
`from_utf8` result, keep `slice.len()` on success or `valid_up_to()` on
failure (both equal `utf8_valid_up_to slice`), and lossily decode that
prefix. The result is the byte sequence of the returned string. -/
def decode_utf8_line_slice (slice : List Nat) : List Nat :=
  from_utf8_lossy (slice.take (utf8_valid_up_to slice))

/-- Embedding of the loop of `decode_lines_from_blob` (lib.rs lines 78-95):
`start` is the running previous end; each end `≤ blob.len` slices
`&blob[start..end]`, a larger end slices `&blob[start..]`; slice-index panics
propagate as `none`. -/
def decode_lines_go (blob : List Nat) : Nat → List Nat → Option (List (List Nat))
  | _, [] => some []
  | start, e :: rest =>
    match (if e ≤ blob.length then slice_get blob start e else tail_get blob start) with
    | none => none
    | some s =>
      match decode_lines_go blob e rest with
      | none => none
      | some out => some (decode_utf8_line_slice s :: out)

/-- Embedding of `decode_lines_from_blob` (lib.rs lines 78-95). -/
def decode_lines_from_blob (blob line_ends : List Nat) : Option (List (List Nat)) :=
  decode_lines_go blob 0 line_ends

/-- The decoded lines claim C7 describes: for consecutive boundary pairs
`(prev_end, end)` the decoded slice `blob[prev_end..end]` with `end` clamped
to the blob length. -/
def line_end_slices (blob line_ends : List Nat) : List (List Nat) :=
  ((0 :: line_ends).zip line_ends).map
    (fun pe => decode_utf8_line_slice ((blob.take (min pe.2 blob.length)).drop pe.1))

/-! ### Helper lemmas -/

/-- Filtering then mapping equals one filterMap with an if-guard. -/
theorem filter_map_ite {α β : Type} (p : α → Bool) (f : α → β) :
    ∀ l : List α,
      (l.filter p).map f = l.filterMap (fun a => if p a then some (f a) else none) := by
  intro l
  induction l with
  | nil => rfl
  | cons a l ih =>
    cases h : p a <;> simp [List.filter_cons, List.filterMap_cons, h, ih]

/-! ### Claims about the scanner -/

/-- Claim C2 (confirmed): the scanner agrees with its reference definition —
`([], true)` on the empty chunk, otherwise the base offset (iff the
begins-new-line flag is set) followed by `p + 1` for every `\n` at absolute
position `p` in increasing order, with the terminator flag true iff the last
byte is `\n`; in particular `scan(b"a\r\nb\r\n", 0, true) = ([0,3,6], true)`
(the `\r` bytes are never treated specially). -/
theorem scan_chunk_reference :
    (∀ (chunk : List Nat) (base : Nat) (flag : Bool),
      scan_chunk chunk base flag = scan_chunk_spec chunk base flag) ∧
      scan_chunk [97, 13, 10, 98, 13, 10] 0 true = ([0, 3, 6], true) := by
  constructor
  · intro chunk base flag
    unfold scan_chunk scan_chunk_spec newline_positions
    rw [filter_map_ite]
  · decide

/-- Claim C1 (code bug): splitting `S = "a\nb"` into the chunks
`["a\n", "b"]` makes the engine record the line-start offset 2 twice — once
for the `\n` inside the first chunk and once again because the second chunk
begins a new line — so the accumulated offsets are `[0, 2, 2]`, not the line
starts `[0, 2]` of `S`; chunk-split invariance fails for partitions that
split right after a newline. -/
theorem split_after_newline_duplicates_offset :
    ((ingest_chunk LogEngine.new [97, 10]).bind fun e => ingest_chunk e [98]).map
        LogEngine.offsets = some [0, 2, 2] ∧
      line_starts_of [97, 10, 98] = [0, 2] := by decide

/-- Claim C3 (code bug): after ingesting the chunks `["x\n", "y"]` from a
fresh engine, the offset sequence is `[0, 2, 2]`, which is not strictly
increasing — the strict-increase invariant is broken at every chunk boundary
that follows a newline. -/
theorem offsets_not_strictly_increasing :
    ((ingest_chunk LogEngine.new [120, 10]).bind fun e => ingest_chunk e [121]).map
        LogEngine.offsets = some [0, 2, 2] ∧
      ¬ List.Chain' (· < ·) ([0, 2, 2] : List Nat) := by
  refine ⟨by decide, fun h => ?_⟩
  have h2 := List.chain'_cons.mp (List.chain'_cons.mp h).2
  omega

/-! ### Claims about the range resolver and reset -/

/-- Claim C5 (confirmed): `get_line_ranges` is total and equals its
specification — both indices clamped into `[0, line_count]`, the empty list
when `start ≥ stop` after clamping, and otherwise the ordered half-open
ranges `(offsets[i], offsets[i+1])` where the end of the last indexed line
is `total_bytes_indexed`. -/
theorem get_line_ranges_clamps :
    ∀ (e : LogEngine) (start stop : Nat),
      get_line_ranges e start stop
        = get_line_ranges_spec e.offsets e.total_bytes_indexed start stop := by
  intro e s t
  simp only [get_line_ranges, get_line_ranges_spec]
  by_cases h : min t e.offsets.length ≤ min s e.offsets.length
  · rw [if_pos h]
    have h0 : min t e.offsets.length - min s (min t e.offsets.length) = 0 := by omega
    rw [h0]
    simp
  · rw [if_neg h]
    have hs : min s (min t e.offsets.length) = min s e.offsets.length := by omega
    rw [hs]
    apply List.map_congr_left
    intro i hi
    have hmem := List.mem_range'_1.mp hi
    have hiL : i < e.offsets.length := by omega
    by_cases h2 : i + 1 < e.offsets.length
    · rw [List.getD_eq_getElem e.offsets e.total_bytes_indexed h2, if_pos h2,
        List.getD_eq_getElem e.offsets 0 h2]
    · have h2' : e.offsets.length ≤ i + 1 := by omega
      rw [if_neg h2, List.getD_eq_default e.offsets e.total_bytes_indexed h2']

/-- Claim C9 (confirmed): after `clear()` every query — line count, total
bytes, boundary flag, line ranges, search — answers exactly as on a freshly
constructed engine, and `clear` is idempotent on the whole state. -/
theorem clear_resets_to_fresh :
    ∀ (e : LogEngine) (s t : Nat) (needle : List Nat),
      (e.clear).line_count = LogEngine.new.line_count ∧
      (e.clear).total_bytes_indexed = LogEngine.new.total_bytes_indexed ∧
      (e.clear).last_chunk_ended_with_newline
          = LogEngine.new.last_chunk_ended_with_newline ∧
      get_line_ranges e.clear s t = get_line_ranges LogEngine.new s t ∧
      search e.clear needle = search LogEngine.new needle ∧
      (e.clear).clear = e.clear :=
  fun _ _ _ _ => ⟨rfl, rfl, rfl, rfl, rfl, rfl⟩

/-! ### Claims about the decoder -/

/-- Take distributes over one explicit cons. -/
theorem take_one_cons (v a : Nat) (l : List Nat) : (a :: l).take (v + 1) = a :: l.take v := rfl

/-- Take distributes over two explicit cons cells. -/
theorem take_two_cons (v a b : Nat) (l : List Nat) :
    (a :: b :: l).take (v + 2) = a :: b :: l.take v := rfl

/-- Take distributes over three explicit cons cells. -/
theorem take_three_cons (v a b c : Nat) (l : List Nat) :
    (a :: b :: c :: l).take (v + 3) = a :: b :: c :: l.take v := rfl

/-- Take distributes over four explicit cons cells. -/
theorem take_four_cons (v a b c d : Nat) (l : List Nat) :
    (a :: b :: c :: d :: l).take (v + 4) = a :: b :: c :: d :: l.take v := rfl

/-- Claim C6 (corrected/amended): `decode_utf8_line_slice` keeps exactly the
longest valid prefix `slice.take (utf8_valid_up_to slice)` — in particular a
fully valid slice is decoded whole and a trailing incomplete sequence is
truncated, but everything from the first invalid byte onward is dropped (the
lossy substitution pass runs on an already-valid prefix and never fires). -/
theorem decode_utf8_keeps_valid_front :
    ∀ slice : List Nat,
      decode_utf8_line_slice slice = slice.take (utf8_valid_up_to slice) := by
  intro slice
  simp only [decode_utf8_line_slice]
  induction slice using utf8_valid_up_to.induct
  case case2 b rest h1 ih =>
    rw [utf8_valid_up_to.eq_def]
    simp only [if_pos h1, take_one_cons]
    simp only [from_utf8_lossy] at ih
    simp only [from_utf8_lossy, lossy_run, if_pos h1, ih]
  case case5 b h1 h2 h3 c1 rest2 hc ih =>
    rw [utf8_valid_up_to.eq_def]
    simp only [if_neg h1, if_neg h2, if_pos h3, if_pos hc, take_two_cons]
    have hlead : lead_ranges b = some [(0x80, 0xBF)] := by
      simp only [lead_ranges, if_neg h2, if_pos h3]
    have hcr : (0x80 ≤ c1 ∧ c1 ≤ 0xBF) := of_decide_eq_true hc
    simp only [from_utf8_lossy] at ih
    simp only [from_utf8_lossy, lossy_run, if_neg h1, hlead, if_pos hcr, List.nil_append,
      List.cons_append, ih]
  case case9 b h1 h2 h3 h4 c1 hb2 c2 rest3 hc2 ih =>
    rw [utf8_valid_up_to.eq_def]
    simp only [if_neg h1, if_neg h2, if_neg h3, if_pos h4, if_pos hb2, if_pos hc2,
      take_three_cons]
    have hc2r : (0x80 ≤ c2 ∧ c2 ≤ 0xBF) := of_decide_eq_true hc2
    simp only [from_utf8_lossy] at ih
    by_cases he0 : b = 0xE0
    · have hlead : lead_ranges b = some [(0xA0, 0xBF), (0x80, 0xBF)] := by
        subst he0; rfl
      have hc1r : (0xA0 ≤ c1 ∧ c1 ≤ 0xBF) := by
        rw [byte2_ok, he0] at hb2; simpa using of_decide_eq_true (by simpa using hb2)
      simp only [from_utf8_lossy, lossy_run, if_neg h1, hlead, if_pos hc1r, if_pos hc2r,
        List.nil_append, List.cons_append, ih]
    · by_cases hed : b = 0xED
      · have hlead : lead_ranges b = some [(0x80, 0x9F), (0x80, 0xBF)] := by
          subst hed; rfl
        have hc1r : (0x80 ≤ c1 ∧ c1 ≤ 0x9F) := by
          rw [byte2_ok, hed] at hb2; simpa using of_decide_eq_true (by simpa using hb2)
        simp only [from_utf8_lossy, lossy_run, if_neg h1, hlead, if_pos hc1r, if_pos hc2r,
          List.nil_append, List.cons_append, ih]
      · have hlead : lead_ranges b = some [(0x80, 0xBF), (0x80, 0xBF)] := by
          simp only [lead_ranges, if_neg h2, if_neg h3, if_neg he0, if_neg hed, if_pos h4]
        have hc1r : (0x80 ≤ c1 ∧ c1 ≤ 0xBF) := by
          rw [byte2_ok] at hb2
          have hne0 : (b == 0xE0) = false := by simp [he0]
          have hned : (b == 0xED) = false := by simp [hed]
          have hnf0 : (b == 0xF0) = false := by simp; omega
          have hnf4 : (b == 0xF4) = false := by simp; omega
          rw [hne0, hned, hnf0, hnf4] at hb2
          simp only [if_false, Bool.false_eq_true] at hb2
          exact of_decide_eq_true hb2
        simp only [from_utf8_lossy, lossy_run, if_neg h1, hlead, if_pos hc1r, if_pos hc2r,
          List.nil_append, List.cons_append, ih]
  case case15 b h1 h2 h3 h4 h5 c1 hb2 c2 hc2 c3 rest4 hc3 ih =>
    rw [utf8_valid_up_to.eq_def]
    simp only [if_neg h1, if_neg h2, if_neg h3, if_neg h4, if_pos h5, if_pos hb2, if_pos hc2,
      if_pos hc3, take_four_cons]
    have hc2r : (0x80 ≤ c2 ∧ c2 ≤ 0xBF) := of_decide_eq_true hc2
    have hc3r : (0x80 ≤ c3 ∧ c3 ≤ 0xBF) := of_decide_eq_true hc3
    simp only [from_utf8_lossy] at ih
    by_cases hf0 : b = 0xF0
    · have hlead : lead_ranges b = some [(0x90, 0xBF), (0x80, 0xBF), (0x80, 0xBF)] := by
        subst hf0; rfl
      have hc1r : (0x90 ≤ c1 ∧ c1 ≤ 0xBF) := by
        rw [byte2_ok, hf0] at hb2; simpa using of_decide_eq_true (by simpa using hb2)
      simp only [from_utf8_lossy, lossy_run, if_neg h1, hlead, if_pos hc1r, if_pos hc2r,
        if_pos hc3r, List.nil_append, List.cons_append, ih]
    · by_cases hf4 : b = 0xF4
      · have hlead : lead_ranges b = some [(0x80, 0x8F), (0x80, 0xBF), (0x80, 0xBF)] := by
          subst hf4; rfl
        have hc1r : (0x80 ≤ c1 ∧ c1 ≤ 0x8F) := by
          rw [byte2_ok, hf4] at hb2; simpa using of_decide_eq_true (by simpa using hb2)
        simp only [from_utf8_lossy, lossy_run, if_neg h1, hlead, if_pos hc1r, if_pos hc2r,
          if_pos hc3r, List.nil_append, List.cons_append, ih]
      · have hf3 : b ≤ 0xF3 := by omega
        have hlead : lead_ranges b = some [(0x80, 0xBF), (0x80, 0xBF), (0x80, 0xBF)] := by
          simp only [lead_ranges, if_neg h2, if_neg h3]
          have hx0 : ¬ b = 0xE0 := by omega
          have hxd : ¬ b = 0xED := by omega
          simp only [if_neg hx0, if_neg hxd, if_neg h4, if_neg hf0, if_neg hf4, if_pos hf3]
        have hc1r : (0x80 ≤ c1 ∧ c1 ≤ 0xBF) := by
          rw [byte2_ok] at hb2
          have hne0 : (b == 0xE0) = false := by simp; omega
          have hned : (b == 0xED) = false := by simp; omega
          have hnf0 : (b == 0xF0) = false := by simp [hf0]
          have hnf4 : (b == 0xF4) = false := by simp [hf4]
          rw [hne0, hned, hnf0, hnf4] at hb2
          simp only [if_false, Bool.false_eq_true] at hb2
          exact of_decide_eq_true hb2
        simp only [from_utf8_lossy, lossy_run, if_neg h1, hlead, if_pos hc1r, if_pos hc2r,
          if_pos hc3r, List.nil_append, List.cons_append, ih]
  all_goals first
    | rfl
    | (rw [utf8_valid_up_to.eq_def]; simp [*, from_utf8_lossy, lossy_run])

/-- Claim C6 counterexample: on the slice `[0xFF, 0x61]` the genuinely
invalid first byte makes the code drop the whole remainder of the line (the
result is empty), instead of decoding the rest with a replacement marker as
the claim states; the lossy decode of the same slice — what substitution
would produce — is `"\u{FFFD}a"`, which retains the byte `0x61`. -/
theorem decode_drops_remainder_after_invalid_byte :
    decode_utf8_line_slice [0xFF, 0x61] = [] ∧
      from_utf8_lossy [0xFF, 0x61] = [0xEF, 0xBF, 0xBD, 0x61] := by decide

/-- Auxiliary form of claim C7: the decode loop, generalised over the running
`start` boundary, succeeds and decodes each clamped slice whenever the ends
are monotone and every end except possibly the last lies within the blob. -/
theorem decode_lines_go_spec (blob : List Nat) :
    ∀ (ends : List Nat) (start : Nat),
      start ≤ blob.length →
      List.Chain' (· ≤ ·) (start :: ends) →
      (∀ x ∈ ends.dropLast, x ≤ blob.length) →
      decode_lines_go blob start ends
        = some (((start :: ends).zip ends).map
            (fun pe => decode_utf8_line_slice ((blob.take (min pe.2 blob.length)).drop pe.1))) := by
  intro ends
  induction ends with
  | nil => intro start _ _ _; rfl
  | cons e rest ih =>
    intro start hstart hchain hdl
    have hse : start ≤ e := (List.chain'_cons.mp hchain).1
    have hchain2 : List.Chain' (· ≤ ·) (e :: rest) := (List.chain'_cons.mp hchain).2
    by_cases he : e ≤ blob.length
    · have hslice : slice_get blob start e = some ((blob.take e).drop start) :=
        if_pos ⟨hse, he⟩
      have hdl2 : ∀ x ∈ rest.dropLast, x ≤ blob.length := by
        intro x hx
        apply hdl
        cases rest with
        | nil => simp at hx
        | cons r rs =>
          rw [List.dropLast_cons₂]
          exact List.mem_cons_of_mem _ hx
      simp only [decode_lines_go, if_pos he, hslice, ih e he hchain2 hdl2,
        List.zip_cons_cons, List.map_cons]
      rw [min_eq_left he]
    · cases rest with
      | cons r rs =>
        exact absurd (hdl e (by rw [List.dropLast_cons₂]; exact List.mem_cons_self _ _)) he
      | nil =>
        have htail : tail_get blob start = some (blob.drop start) := if_pos hstart
        simp only [decode_lines_go, if_neg he, htail, List.zip_cons_cons, List.map_cons]
        rw [min_eq_right (le_of_not_le he), List.take_length]
        rfl

/-- Claim C7 (corrected/amended): `decode_lines_from_blob` returns one
decoded line per end offset — each slice `blob[prev_end..end]` with `end`
clamped to the blob length — provided the end offsets are non-decreasing and
every end except possibly the last is within the blob; outside those
conditions the slice indexing can abort (see the counterexample). -/
theorem decode_lines_total_when_monotone :
    ∀ (blob line_ends : List Nat),
      List.Chain' (· ≤ ·) line_ends →
      (∀ x ∈ line_ends.dropLast, x ≤ blob.length) →
      decode_lines_from_blob blob line_ends = some (line_end_slices blob line_ends) := by
  intro blob ends hchain hdl
  have h0 : List.Chain' (· ≤ ·) (0 :: ends) :=
    List.chain'_cons'.mpr ⟨fun y _ => Nat.zero_le y, hchain⟩
  exact decode_lines_go_spec blob ends 0 (Nat.zero_le _) h0 hdl

/-- Witness for claim C7's theorem: decoding the blob `"ab\nc"` with line
ends `[3, 4]` succeeds and yields the two clamped slices. -/
theorem decode_lines_total_witness :
    decode_lines_from_blob [97, 98, 10, 99] [3, 4]
      = some (line_end_slices [97, 98, 10, 99] [3, 4]) :=
  decode_lines_total_when_monotone [97, 98, 10, 99] [3, 4]
    (List.chain'_cons.mpr ⟨by omega, List.chain'_singleton 4⟩)
    (by intro x hx; simp at hx; subst hx; decide)

/-- Claim C7 counterexample: with the non-increasing end offsets `[2, 1]` the
second iteration evaluates the Rust slice `&blob[2..1]`, which panics — the
decode aborts instead of returning one line per offset. -/
theorem decode_lines_nonmonotone_aborts :
    decode_lines_from_blob [0, 0, 0] [2, 1] = none := by decide

/-! ### Claims about reserve and commit -/

/-- Claim C8 (corrected/amended): a commit of at most the most recently
reserved size always succeeds — `Vec::reserve` guarantees capacity of at
least `len + size`, so the `assert!` passes — extending the buffer's logical
length by exactly the written bytes and returning them as the committed
view. When the assert does fire in the real program it is a panic (process
abort), not a recoverable BufferOverflow value, and it tests the actual
`Vec` capacity, so a commit beyond the most recent reserve size may still
succeed (see the counterexample); no exact abort condition is stated, since
the actual capacity is only lower-bounded by the reserve contract. -/
theorem append_chunk_capacity_spec :
    ∀ (e : LogEngine) (size : Nat) (data : List Nat),
      data.length ≤ size →
      append_chunk (get_buffer_pointer e size) data
          = some ({ get_buffer_pointer e size with buffer := e.buffer ++ data }, data) := by
  intro e size data h
  have hc : (get_buffer_pointer e size).buffer.length + data.length
      ≤ (get_buffer_pointer e size).buffer_cap := by
    show e.buffer.length + data.length ≤ max e.buffer_cap (e.buffer.length + size)
    omega
  simp only [append_chunk, if_pos hc]
  rfl

/-- Witness for claim C8's theorem: committing 2 bytes after reserving 2 on a
fresh engine succeeds and extends the buffer by exactly those bytes. -/
theorem append_chunk_capacity_witness :
    append_chunk (get_buffer_pointer LogEngine.new 2) [5, 6]
        = some ({ get_buffer_pointer LogEngine.new 2 with
            buffer := LogEngine.new.buffer ++ [5, 6] }, [5, 6]) :=
  append_chunk_capacity_spec LogEngine.new 2 [5, 6] (by decide)

/-- Claim C8 counterexample: after `reserve(10)`, `commit(2)`, `reserve(1)`,
a commit of 5 bytes succeeds even though 5 exceeds the most recent reserve
size of 1 — the earlier reservation left enough capacity, so the claimed
BufferOverflow failure does not happen. -/
theorem append_chunk_succeeds_beyond_last_reserve :
    ((append_chunk (get_buffer_pointer LogEngine.new 10) [1, 1]).bind
        (fun p => append_chunk (get_buffer_pointer p.1 1) [1, 1, 1, 1, 1])).map
        (fun p => p.1.buffer) = some [1, 1, 1, 1, 1, 1, 1] := by decide

/-! ### Claims about the matcher -/

/-- On strictly or weakly increasing offsets the window loop never hits the
slice-index panic and produces exactly the per-line hits. -/
theorem window_scan_eq_hits (buffer needle : List Nat) :
    ∀ (l : List Nat) (a idx : Nat), List.Chain' (· ≤ ·) (a :: l) →
      window_scan buffer needle idx a l = some (window_hits buffer needle idx a l) := by
  intro l
  induction l with
  | nil => intro a idx _; rfl
  | cons b rest ih =>
    intro a idx hchain
    have hab : a ≤ b := (List.chain'_cons.mp hchain).1
    have hch2 : List.Chain' (· ≤ ·) (b :: rest) := (List.chain'_cons.mp hchain).2
    by_cases hb : b ≤ buffer.length
    · have hslice : slice_get buffer a b = some ((buffer.take b).drop a) := if_pos ⟨hab, hb⟩
      simp only [window_scan, window_hits, if_pos hb, hslice, ih b (idx + 1) hch2]
      cases hc : contains_subslice ((buffer.take b).drop a) needle <;> simp [hc]
    · simp only [window_scan, window_hits, if_neg hb]
      exact ih b (idx + 1) hch2

/-- The window hits are strictly increasing, bounded below by the running
index and bounded above by the window count. -/
theorem window_hits_bounds (buffer needle : List Nat) :
    ∀ (l : List Nat) (a idx : Nat),
      List.Chain' (· < ·) (window_hits buffer needle idx a l) ∧
        ∀ j ∈ window_hits buffer needle idx a l, idx ≤ j ∧ j + 1 < idx + (a :: l).length := by
  intro l
  induction l with
  | nil =>
    intro a idx
    exact ⟨List.chain'_nil, by simp [window_hits]⟩
  | cons b rest ih =>
    intro a idx
    obtain ⟨ihc, ihb⟩ := ih b (idx + 1)
    by_cases hb : b ≤ buffer.length
    · cases hc : contains_subslice ((buffer.take b).drop a) needle
      · have hrw : window_hits buffer needle idx a (b :: rest)
            = window_hits buffer needle (idx + 1) b rest := by
          simp [window_hits, if_pos hb, hc]
        rw [hrw]
        refine ⟨ihc, fun j hj => ?_⟩
        obtain ⟨h1, h2⟩ := ihb j hj
        refine ⟨by omega, ?_⟩
        simp only [List.length_cons] at h2 ⊢
        omega
      · have hrw : window_hits buffer needle idx a (b :: rest)
            = idx :: window_hits buffer needle (idx + 1) b rest := by
          simp [window_hits, if_pos hb, hc]
        rw [hrw]
        constructor
        · refine List.chain'_cons'.mpr ⟨fun y hy => ?_, ihc⟩
          have := (ihb y (List.mem_of_mem_head? hy)).1
          omega
        · intro j hj
          rcases List.mem_cons.mp hj with rfl | hj2
          · refine ⟨le_refl _, ?_⟩
            simp only [List.length_cons]
            omega
          · obtain ⟨h1, h2⟩ := ihb j hj2
            refine ⟨by omega, ?_⟩
            simp only [List.length_cons] at h2 ⊢
            omega
    · have hrw : window_hits buffer needle idx a (b :: rest)
          = window_hits buffer needle (idx + 1) b rest := by
        simp [window_hits, if_neg hb]
      rw [hrw]
      refine ⟨ihc, fun j hj => ?_⟩
      obtain ⟨h1, h2⟩ := ihb j hj
      refine ⟨by omega, ?_⟩
      simp only [List.length_cons] at h2 ⊢
      omega

/-- Appending one strictly larger element preserves strict increase. -/
theorem chain_append_singleton {m : Nat} :
    ∀ {w : List Nat}, List.Chain' (· < ·) w → (∀ j ∈ w, j < m) →
      List.Chain' (· < ·) (w ++ [m]) := by
  intro w
  induction w with
  | nil => intro _ _; exact List.chain'_singleton m
  | cons a w ih =>
    intro hch hb
    have h2 := List.chain'_cons'.mp hch
    refine List.chain'_cons'.mpr
      ⟨?_, ih h2.2 (fun j hj => hb j (List.mem_cons_of_mem _ hj))⟩
    intro y hy
    rcases w with _ | ⟨c, cs⟩
    · simp at hy
      subst hy
      exact hb a (List.mem_cons_self _ _)
    · simp at hy
      subst hy
      exact h2.1 c (by simp)

/-- Claim C4 (corrected/amended): for strictly increasing offsets and a
non-empty needle, `match_lines` never panics and returns exactly the
ascending, duplicate-free per-line hits: index `i` is reported iff the
needle occurs inside line `i`'s own slice — `buffer[offsets[i]..offsets[i+1]]`
for a window whose end fits the buffer, the tail slice
`buffer[offsets[last]..]` for the last of two or more offsets, and the whole
buffer in the single-offset case; occurrences spanning past a line's end
offset are not found for that line. -/
theorem match_lines_per_line :
    ∀ (buffer offsets needle : List Nat),
      List.Chain' (· < ·) offsets → needle ≠ [] →
      match_lines buffer offsets needle = some (match_hits buffer offsets needle) ∧
        List.Chain' (· < ·) (match_hits buffer offsets needle) := by
  intro buffer offsets needle hchain hne
  have hnb : needle.isEmpty = false := by
    cases needle with
    | nil => exact absurd rfl hne
    | cons a l => rfl
  cases offsets with
  | nil =>
    constructor
    · simp [match_lines, match_hits, hnb]
    · simp only [match_hits]
      exact List.chain'_nil
  | cons a tl =>
    have hle : List.Chain' (· ≤ ·) (a :: tl) := hchain.imp (fun _ _ hab => le_of_lt hab)
    have hws := window_scan_eq_hits buffer needle tl a 0 hle
    obtain ⟨hwc, hwb⟩ := window_hits_bounds buffer needle tl a 0
    constructor
    · simp only [match_lines, match_hits, hnb, Bool.false_eq_true, if_false, hws]
      split_ifs <;> rfl
    · simp only [match_hits]
      split_ifs with h1 h2 h3 h4
      · refine chain_append_singleton hwc ?_
        intro j hj
        have := (hwb j hj).2
        simp only [List.length_cons] at this ⊢
        omega
      · exact hwc
      · have htl : tl = [] := by
          simp only [List.length_cons] at h3
          exact List.length_eq_zero.mp (by omega)
        subst htl
        exact List.chain'_singleton 0
      · exact hwc
      · exact hwc

/-- Claim C4 counterexample: in the buffer `"ab\ncd"` with offsets `[0, 3]`
(strictly increasing, within the buffer) the needle `"b\nc"` occurs at
position 1, which lies in line 0, so the claim's whole-buffer reading demands
the result `[0]`; the code searches each line slice separately and returns
the empty list. -/
theorem match_lines_misses_spanning_needle :
    match_lines [97, 98, 10, 99, 100] [0, 3] [98, 10, 99] = some [] ∧
      match_lines_claim [97, 98, 10, 99, 100] [0, 3] [98, 10, 99] = [0] ∧
      List.Chain' (· < ·) ([0, 3] : List Nat) := by
  refine ⟨by decide, by decide, ?_⟩
  exact List.chain'_cons.mpr ⟨by omega, List.chain'_singleton 3⟩

/-- Witness for claim C4's theorem at the specification example buffer
`"hello\nworld\nfoo bar\n"` with offsets `[0, 6, 12, 20]` and needle
`"world"`. -/
theorem match_lines_per_line_witness :
    match_lines [104, 101, 108, 108, 111, 10, 119, 111, 114, 108, 100, 10, 102, 111, 111,
        32, 98, 97, 114, 10] [0, 6, 12, 20] [119, 111, 114, 108, 100]
      = some (match_hits [104, 101, 108, 108, 111, 10, 119, 111, 114, 108, 100, 10, 102,
          111, 111, 32, 98, 97, 114, 10] [0, 6, 12, 20] [119, 111, 114, 108, 100]) ∧
      List.Chain' (· < ·) (match_hits [104, 101, 108, 108, 111, 10, 119, 111, 114, 108,
        100, 10, 102, 111, 111, 32, 98, 97, 114, 10] [0, 6, 12, 20]
        [119, 111, 114, 108, 100]) :=
  match_lines_per_line _ _ _
    (List.chain'_cons.mpr ⟨by omega, List.chain'_cons.mpr ⟨by omega,
      List.chain'_cons.mpr ⟨by omega, List.chain'_singleton 20⟩⟩⟩)
    (by decide)

/-! ### Claims about ingest and search -/

/-- The offsets a single scan produces are weakly increasing and bounded
below by the base offset. -/
theorem scan_chunk_offsets_mono (chunk : List Nat) (base : Nat) (flag : Bool) :
    List.Chain' (· ≤ ·) (scan_chunk chunk base flag).1 ∧
      ∀ x ∈ (scan_chunk chunk base flag).1, base ≤ x := by
  unfold scan_chunk
  by_cases he : chunk.isEmpty
  · rw [if_pos he]
    exact ⟨List.chain'_nil, by simp⟩
  · rw [if_neg he]
    dsimp only
    have hpw : List.Pairwise (· < ·) (newline_positions chunk) :=
      (List.pairwise_lt_range chunk.length).filter _
    have hmap : List.Pairwise (· < ·)
        ((newline_positions chunk).map (fun pos => base + pos + 1)) :=
      hpw.map _ (fun a b hab => by omega)
    have hmapc : List.Chain' (· ≤ ·)
        ((newline_positions chunk).map (fun pos => base + pos + 1)) :=
      (hmap.imp fun hab => le_of_lt hab).chain'
    have hmem : ∀ x ∈ (newline_positions chunk).map (fun pos => base + pos + 1),
        base ≤ x := by
      intro x hx
      obtain ⟨p, _, rfl⟩ := List.mem_map.mp hx
      omega
    by_cases hf : flag = true
    · rw [if_pos hf]
      have hbx : [base] ++ (newline_positions chunk).map (fun pos => base + pos + 1)
          = base :: (newline_positions chunk).map (fun pos => base + pos + 1) := rfl
      rw [hbx]
      refine ⟨List.chain'_cons'.mpr
        ⟨fun y hy => hmem y (List.mem_of_mem_head? hy), hmapc⟩, ?_⟩
      intro x hx
      rcases List.mem_cons.mp hx with rfl | hx2
      · exact le_refl _
      · exact hmem x hx2
    · rw [if_neg hf]
      have hbx : ([] : List Nat) ++ (newline_positions chunk).map
          (fun pos => base + pos + 1)
          = (newline_positions chunk).map (fun pos => base + pos + 1) := rfl
      rw [hbx]
      exact ⟨hmapc, hmem⟩

/-- Substring containment in the empty haystack is false for a non-empty
needle. -/
theorem contains_subslice_nil (needle : List Nat) (hne : needle ≠ []) :
    contains_subslice [] needle = false := by
  cases needle with
  | nil => exact absurd rfl hne
  | cons x xs => simp [contains_subslice]

/-- The window loop over an empty buffer records nothing when the offsets are
weakly increasing and the needle is non-empty. -/
theorem window_scan_empty_buffer (needle : List Nat) (hne : needle ≠ []) :
    ∀ (l : List Nat) (a idx : Nat), List.Chain' (· ≤ ·) (a :: l) →
      window_scan [] needle idx a l = some [] := by
  intro l
  induction l with
  | nil => intro a idx _; rfl
  | cons b rest ih =>
    intro a idx hchain
    have hab : a ≤ b := (List.chain'_cons.mp hchain).1
    have hch2 : List.Chain' (· ≤ ·) (b :: rest) := (List.chain'_cons.mp hchain).2
    by_cases hb : b ≤ ([] : List Nat).length
    · have hb0 : b = 0 := by simpa using hb
      subst hb0
      have ha0 : a = 0 := by omega
      subst ha0
      have hslice : slice_get ([] : List Nat) 0 0 = some [] := rfl
      simp only [window_scan, if_pos hb, hslice, ih 0 (idx + 1) hch2,
        contains_subslice_nil needle hne]
      rfl
    · simp only [window_scan, if_neg hb]
      exact ih b (idx + 1) hch2

/-- Matching over an empty buffer with a non-empty needle and weakly
increasing offsets returns the empty result. -/
theorem match_lines_empty_buffer (offsets needle : List Nat) (hne : needle ≠ [])
    (hchain : List.Chain' (· ≤ ·) offsets) :
    match_lines [] offsets needle = some [] := by
  have hnb : needle.isEmpty = false := by
    cases needle with
    | nil => exact absurd rfl hne
    | cons a l => rfl
  cases offsets with
  | nil => simp [match_lines, hnb]
  | cons a tl =>
    simp only [match_lines, hnb, Bool.false_eq_true, if_false,
      window_scan_empty_buffer needle hne tl a 0 hchain]
    split_ifs with h1 h2 h3 h4
    · exact absurd h2.1 (by simp)
    · rfl
    · exact absurd h4.1 (by simp)
    · rfl
    · rfl

/-- Successful `index_chunk` leaves an empty buffer and appends exactly the
scanned line starts. -/
theorem index_chunk_shape {e e2 : LogEngine} {data : List Nat}
    (h : index_chunk e data = some e2) :
    e2.buffer = [] ∧
      e2.offsets = e.offsets ++
        (scan_chunk data e.total_bytes_indexed e.last_chunk_ended_with_newline).1 := by
  unfold index_chunk at h
  cases happ : append_chunk e data with
  | none => rw [happ] at h; exact absurd h (by simp)
  | some p =>
    obtain ⟨e1, chunk⟩ := p
    rw [happ] at h
    unfold append_chunk at happ
    by_cases hc : e.buffer.length + data.length ≤ e.buffer_cap
    · rw [if_pos hc] at happ
      injection Option.some.inj happ with he1 hch
      subst he1
      subst hch
      obtain rfl := Option.some.inj h
      exact ⟨rfl, rfl⟩
    · rw [if_neg hc] at happ
      exact absurd happ (by simp)

/-- Claim C10 (confirmed): `index_chunk` unconditionally discards the working
buffer, so immediately afterwards (no intervening reserve/commit) the
retained buffer is empty and `search` with any non-empty needle returns the
empty sequence — only the empty needle can match once a chunk has been
indexed. The hypotheses state the engine invariant that the stored offsets
are weakly increasing and bounded by the bytes indexed so far (true of every
reachable state). -/
theorem search_after_index_chunk_empty :
    ∀ (e e2 : LogEngine) (data needle : List Nat),
      List.Chain' (· ≤ ·) e.offsets →
      (∀ x ∈ e.offsets, x ≤ e.total_bytes_indexed) →
      needle ≠ [] →
      index_chunk e data = some e2 →
      e2.buffer = [] ∧ search e2 needle = some [] := by
  intro e e2 data needle hchain hbound hne hidx
  obtain ⟨hbuf, hoff⟩ := index_chunk_shape hidx
  refine ⟨hbuf, ?_⟩
  obtain ⟨hsc, hsb⟩ :=
    scan_chunk_offsets_mono data e.total_bytes_indexed e.last_chunk_ended_with_newline
  have hoffc : List.Chain' (· ≤ ·) e2.offsets := by
    rw [hoff]
    refine List.chain'_append.mpr ⟨hchain, hsc, ?_⟩
    intro x hx y hy
    have hxm : x ∈ e.offsets := by
      obtain ⟨hne2, rfl⟩ := List.mem_getLast?_eq_getLast hx
      exact List.getLast_mem hne2
    calc x ≤ e.total_bytes_indexed := hbound x hxm
      _ ≤ y := hsb y (List.mem_of_mem_head? hy)
  have hsearch : search e2 needle = match_lines [] e2.offsets needle := by
    unfold search buffer_slice slice_get
    rw [hbuf]
    simp
  rw [hsearch]
  exact match_lines_empty_buffer e2.offsets needle hne hoffc

/-- Witness for claim C10's theorem: indexing the chunk `"hi\n"` on a fresh
engine (after the matching reserve) leaves the state with an empty buffer
and offsets `[0, 3]`, and searching for `"h"` afterwards finds nothing. -/
theorem search_after_index_chunk_witness :
    (⟨[], 0, [0, 3], 3, true⟩ : LogEngine).buffer = [] ∧
      search ⟨[], 0, [0, 3], 3, true⟩ [104] = some [] :=
  search_after_index_chunk_empty (get_buffer_pointer LogEngine.new 3)
    ⟨[], 0, [0, 3], 3, true⟩ [104, 105, 10] [104]
    List.chain'_nil (by intro x hx; exact absurd hx (List.not_mem_nil x)) (by decide) (by decide)
